import Mathlib

/-!
Shallow embedding of `src/main.rs` (crate `layered`, a Cake-Pattern /
Clean-Architecture sample): entities, the in-memory storage component
backed by a `BTreeMap<Name, User>`, the time component, the
capability-composed user repository, and the production/test
environments.  Rust `Result<T, Error>` becomes `Except Error T`; a
computation that can panic (`Option::unwrap` on `None`) is wrapped in
`Option`, with `none` standing for the panic.
-/

namespace Layered

/-- Rust `chrono::DateTime<Local>`: only construction and equality matter to the
program, so a timestamp is modelled by its epoch second count. -/
structure Timestamp where
  epochSec : Int
deriving DecidableEq

/-- Rust `entity::user::Name`, a string-wrapped storage key (`Ord` by the
wrapped string). -/
structure Name where
  name : String
deriving DecidableEq

/-- Rust `entity::user::Email`, an opaque string wrapper. -/
structure Email where
  email : String
deriving DecidableEq

/-- Rust `entity::user::User`. -/
structure User where
  name : Name
  email : Email
  create_time : Timestamp
  update_time : Timestamp
deriving DecidableEq

/-- Rust `failure::Error`: a single generic error wrapper, never discriminated. -/
structure Error where
  msg : String
deriving DecidableEq

/-- Rust `BTreeMap::insert` on the map modelled as an association list strictly
sorted by the key string: overwrite the matching key or splice the new
entry in key order. -/
def btreeInsert (n : Name) (u : User) : List (Name × User) → List (Name × User)
  | [] => [(n, u)]
  | (k, v) :: rest =>
    if n.name < k.name then (n, u) :: (k, v) :: rest
    else if n = k then (n, u) :: rest
    else (k, v) :: btreeInsert n u rest

/-- Rust `BTreeMap::get` on the association-list model. -/
def btreeGet (n : Name) : List (Name × User) → Option User
  | [] => none
  | (k, v) :: rest => if k = n then some v else btreeGet n rest

/-- The key strings of the map, in list order. -/
def btreeKeys (l : List (Name × User)) : List String :=
  l.map (fun p => p.1.name)

/-- Rust `component::storage::MemoryStorage`: its one field `list` is the
`BTreeMap<Name, User>`. -/
structure MemoryStorage where
  list : List (Name × User)
deriving DecidableEq

/-- Rust `MemoryStorage::new()`: an empty map. -/
def MemoryStorage.new : MemoryStorage := ⟨[]⟩

/-- Rust `MemoryStorage::read`: `Ok(self.list.get(&name).unwrap().clone())`.
`unwrap` on a missing key panics, modelled by the outer `none`. -/
def MemoryStorage.read (s : MemoryStorage) (n : Name) : Option (Except Error User) :=
  match btreeGet n s.list with
  | none => none
  | some u => some (Except.ok u)

/-- Rust `MemoryStorage::save`: `self.list.insert(name, user).map(|_| ()); Ok(())`.
Returns the `Result` together with the updated storage (`&mut self`). -/
def MemoryStorage.save (s : MemoryStorage) (n : Name) (u : User) :
    Except Error Unit × MemoryStorage :=
  (Except.ok (), ⟨btreeInsert n u s.list⟩)

/-- Rust `MemoryStorage::read_all`: `Ok(self.list.values().map(clone).collect())`;
`BTreeMap::values` yields the values in ascending key order, which is the
list order of the sorted model. -/
def MemoryStorage.read_all (s : MemoryStorage) : Except Error (List User) :=
  Except.ok (s.list.map Prod.snd)

/-- Rust `MemoryStorage::save_all`: `for (name, user) in users { self.list.insert(..) }; Ok(())`. -/
def MemoryStorage.save_all (s : MemoryStorage) :
    List (Name × User) → Except Error Unit × MemoryStorage
  | [] => (Except.ok (), s)
  | (n, u) :: rest => MemoryStorage.save_all ⟨btreeInsert n u s.list⟩ rest

/-- The fixed timestamp `2018-08-20T10:00:00 +0900` returned by the mock
clock, as epoch seconds. -/
def T0 : Timestamp := ⟨1534726800⟩

/-- Rust `tests::mock::time::MockTime::now`: always the hardcoded timestamp,
whatever the call index. -/
def MockTime.now (_call : Nat) : Timestamp := T0

/-- An environment (`env::RealWorld` / `tests::mock::env::TestWorld`):
a time component and a storage component.  The time component is a
function from the call index (how many times `now()` has run so far) to
the timestamp it returns, so that call-count independence is expressible;
`calls` counts the clock calls made so far. -/
structure World where
  clock : Nat → Timestamp
  calls : Nat
  storage : MemoryStorage

/-- Rust `TimeComponent::now()` as invoked through the environment. -/
def World.now (w : World) : Timestamp × World :=
  (w.clock w.calls, { w with calls := w.calls + 1 })

/-- Rust `TestWorld::new()`: mock clock, empty storage. -/
def TestWorld.new : World :=
  { clock := MockTime.now, calls := 0, storage := MemoryStorage.new }

/-- Rust `RealWorld::new()`: the `Chrono` component delegates to the external
wall clock, taken as a parameter. -/
def RealWorld.new (wallClock : Nat → Timestamp) : World :=
  { clock := wallClock, calls := 0, storage := MemoryStorage.new }

/-- Rust `UserRepository::get`: `Ok(self.user_storage_component().read(name)?)`.
The `?` operator re-wraps the success and propagates the failure; a panic
inside `read` propagates as a panic. -/
def UserRepository.get (w : World) (n : Name) : Option (Except Error User) :=
  match w.storage.read n with
  | none => none
  | some (Except.error e) => some (Except.error e)
  | some (Except.ok u) => some (Except.ok u)

/-- Rust `UserRepository::insert`: call `now()` once, build the `User` with that
value in both timestamp fields, persist it with `save`, propagate the
save result. -/
def UserRepository.insert (w : World) (n : Name) (e : Email) :
    Except Error Unit × World :=
  match w.now with
  | (t, w1) =>
    match w1.storage.save n { name := n, email := e, create_time := t, update_time := t } with
    | (Except.ok _, s1) => (Except.ok (), { w1 with storage := s1 })
    | (Except.error err, s1) => (Except.error err, { w1 with storage := s1 })

/-- Modelled from the spec: the secondary repository variant (generic
struct parameters plus an in-memory read cache) is described in the spec
but absent from `src/`; only a comment in `repository::users` alludes to
adding a cache component.  Per the spec it "maintains a read-through
mutable cache mapping Name to the most recently fetched User, populated
on get and not invalidated or updated by insert".  The environment of
that variant: clock, clock-call counter, storage, and the cache map. -/
structure CachedWorld where
  clock : Nat → Timestamp
  calls : Nat
  storage : MemoryStorage
  cache : List (Name × User)

/-- Modelled from the spec: `get` on the cached variant — consult the
cache; on a miss read storage and, on success, record the fetched user in
the cache. -/
def CachedWorld.get (w : CachedWorld) (n : Name) :
    Option (Except Error User) × CachedWorld :=
  match btreeGet n w.cache with
  | some u => (some (Except.ok u), w)
  | none =>
    match w.storage.read n with
    | some (Except.ok u) =>
      (some (Except.ok u), { w with cache := btreeInsert n u w.cache })
    | r => (r, w)

/-- Modelled from the spec: `insert` on the cached variant — identical to
`UserRepository::insert`, touching only the clock counter and the
storage, never the cache. -/
def CachedWorld.insert (w : CachedWorld) (n : Name) (e : Email) :
    Except Error Unit × CachedWorld :=
  match w.clock w.calls with
  | t =>
    match w.storage.save n { name := n, email := e, create_time := t, update_time := t } with
    | (Except.ok _, s1) => (Except.ok (), { w with calls := w.calls + 1, storage := s1 })
    | (Except.error err, s1) => (Except.error err, { w with calls := w.calls + 1, storage := s1 })

/-- The `BTreeMap` representation invariant in the model: the key strings
are strictly increasing along the list. -/
def MemoryStorage.WF (s : MemoryStorage) : Prop :=
  List.Chain' (· < ·) (btreeKeys s.list)

/-- Storage states reachable from `MemoryStorage::new()` by the mutating
operations of the storage component. -/
inductive MemoryStorage.Reachable : MemoryStorage → Prop
  | new : MemoryStorage.Reachable MemoryStorage.new
  | save (s : MemoryStorage) (n : Name) (u : User) :
      MemoryStorage.Reachable s → MemoryStorage.Reachable (s.save n u).2
  | save_all (s : MemoryStorage) (l : List (Name × User)) :
      MemoryStorage.Reachable s → MemoryStorage.Reachable (s.save_all l).2

/-- The value the last `save` for key `n` in the sequence would leave
behind: `none` when `n` never occurs. -/
def lastSaved (n : Name) : List (Name × User) → Option User
  | [] => none
  | (k, u) :: rest =>
    match lastSaved n rest with
    | some v => some v
    | none => if k = n then some u else none

/-- How many entries of the map carry the key `n`. -/
def countKey (n : Name) (l : List (Name × User)) : Nat :=
  l.countP (fun p => p.1 = n)

theorem Name.eq_of_name_eq {a b : Name} (h : a.name = b.name) : a = b := by
  cases a; cases b; cases h; rfl

theorem btreeKeys_nil : btreeKeys [] = [] := rfl

theorem btreeKeys_cons (p : Name × User) (l : List (Name × User)) :
    btreeKeys (p :: l) = p.1.name :: btreeKeys l := rfl

theorem btreeGet_insert_self (n : Name) (u : User) :
    ∀ l : List (Name × User), btreeGet n (btreeInsert n u l) = some u
  | [] => by simp [btreeInsert, btreeGet]
  | (k, v) :: rest => by
    by_cases h1 : n.name < k.name
    · simp [btreeInsert, btreeGet, h1]
    · by_cases h2 : n = k
      · simp [btreeInsert, btreeGet, h1, h2]
      · have h3 : ¬k = n := fun h => h2 h.symm
        simp [btreeInsert, btreeGet, h1, h2, h3, btreeGet_insert_self n u rest]

theorem btreeGet_insert_ne (m n : Name) (u : User) (hmn : m ≠ n) :
    ∀ l : List (Name × User), btreeGet m (btreeInsert n u l) = btreeGet m l
  | [] => by
    have hnm : ¬n = m := fun h => hmn h.symm
    simp [btreeInsert, btreeGet, hnm]
  | (k, v) :: rest => by
    have hnm : ¬n = m := fun h => hmn h.symm
    by_cases h1 : n.name < k.name
    · simp [btreeInsert, btreeGet, h1, hnm]
    · by_cases h2 : n = k
      · subst h2; simp [btreeInsert, btreeGet, h1, hnm]
      · have step : btreeInsert n u ((k, v) :: rest) = (k, v) :: btreeInsert n u rest := by
          simp [btreeInsert, h1, h2]
        rw [step]
        by_cases h4 : k = m
        · simp [btreeGet, h4]
        · simp [btreeGet, h4, btreeGet_insert_ne m n u hmn rest]

theorem btreeInsert_keys_head (n : Name) (u : User) (l : List (Name × User)) :
    (btreeKeys (btreeInsert n u l)).head? = some n.name ∨
      (btreeKeys (btreeInsert n u l)).head? = (btreeKeys l).head? := by
  match l with
  | [] => left; simp [btreeInsert, btreeKeys]
  | (k, v) :: rest =>
    by_cases h1 : n.name < k.name
    · left; simp [btreeInsert, btreeKeys, h1]
    · by_cases h2 : n = k
      · left; simp [btreeInsert, btreeKeys, h1, h2]
      · right; simp [btreeInsert, btreeKeys, h1, h2]

theorem wf_btreeInsert (n : Name) (u : User) :
    ∀ l : List (Name × User), List.Chain' (· < ·) (btreeKeys l) →
      List.Chain' (· < ·) (btreeKeys (btreeInsert n u l))
  | [], _ => by simp [btreeInsert, btreeKeys]
  | (k, v) :: rest, h => by
    rw [btreeKeys_cons, List.chain'_cons'] at h
    by_cases h1 : n.name < k.name
    · simp only [btreeInsert, if_pos h1, btreeKeys_cons, List.chain'_cons]
      exact ⟨h1, List.chain'_cons'.2 h⟩
    · by_cases h2 : n = k
      · simp only [btreeInsert, if_neg h1, if_pos h2, btreeKeys_cons]
        exact List.chain'_cons'.2 ⟨by rw [h2]; exact h.1, h.2⟩
      · have hk : k.name < n.name :=
          lt_of_le_of_ne (not_lt.1 h1) (fun he => h2 (Name.eq_of_name_eq he.symm))
        simp only [btreeInsert, if_neg h1, if_neg h2, btreeKeys_cons]
        refine List.chain'_cons'.2 ⟨?_, wf_btreeInsert n u rest h.2⟩
        intro b hb
        rcases btreeInsert_keys_head n u rest with hh | hh
        · rw [hh] at hb
          simp only [Option.mem_some_iff] at hb
          rw [← hb]; exact hk
        · rw [hh] at hb
          exact h.1 b hb

theorem save_all_eq_foldl :
    ∀ (l : List (Name × User)) (s : MemoryStorage),
      s.save_all l = (Except.ok (), l.foldl (fun acc p => (acc.save p.1 p.2).2) s)
  | [], _ => rfl
  | (k, u) :: rest, s => by
    simp only [MemoryStorage.save_all, List.foldl_cons]
    exact save_all_eq_foldl rest ⟨btreeInsert k u s.list⟩

theorem btreeGet_save_all (n : Name) :
    ∀ (l : List (Name × User)) (s : MemoryStorage),
      btreeGet n ((s.save_all l).2).list =
        match lastSaved n l with
        | some v => some v
        | none => btreeGet n s.list
  | [], _ => rfl
  | (k, u) :: rest, s => by
    have ih := btreeGet_save_all n rest ⟨btreeInsert k u s.list⟩
    simp only [MemoryStorage.save_all, lastSaved]
    rw [ih]
    cases hl : lastSaved n rest with
    | some v => rfl
    | none =>
      by_cases hk : k = n
      · subst hk; simp [btreeGet_insert_self]
      · simp only [if_neg hk]
        exact btreeGet_insert_ne n k u (fun h => hk h.symm) s.list

theorem wf_save_all :
    ∀ (l : List (Name × User)) (s : MemoryStorage), s.WF → ((s.save_all l).2).WF
  | [], _, h => h
  | (k, u) :: rest, s, h =>
    wf_save_all rest ⟨btreeInsert k u s.list⟩ (wf_btreeInsert k u s.list h)

theorem wf_of_reachable {s : MemoryStorage} (h : s.Reachable) : s.WF := by
  induction h with
  | new => simp [MemoryStorage.WF, MemoryStorage.new, btreeKeys]
  | save s n u _ ih => exact wf_btreeInsert n u s.list ih
  | save_all s l _ ih => exact wf_save_all l s ih

theorem countKey_le_one (n : Name) :
    ∀ l : List (Name × User), List.Pairwise (· < ·) (btreeKeys l) → countKey n l ≤ 1
  | [], _ => by simp [countKey]
  | (k, v) :: rest, h => by
    rw [btreeKeys_cons, List.pairwise_cons] at h
    have ih := countKey_le_one n rest h.2
    by_cases hk : k = n
    · subst hk
      have hz : List.countP (fun p => decide (p.1 = k)) rest = 0 := by
        rw [List.countP_eq_zero]
        intro p hp hpk
        have hpe : p.1 = k := of_decide_eq_true hpk
        have hmem : p.1.name ∈ btreeKeys rest :=
          List.mem_map_of_mem (fun q => q.1.name) hp
        have hlt := h.1 p.1.name hmem
        rw [hpe] at hlt
        exact lt_irrefl _ hlt
      simp [countKey, List.countP_cons, hz]
    · simp only [countKey, List.countP_cons] at ih ⊢
      simpa [hk] using ih

theorem countKey_pos_of_get (n : Name) (u : User) :
    ∀ l : List (Name × User), btreeGet n l = some u → 0 < countKey n l
  | [], h => by simp [btreeGet] at h
  | (k, v) :: rest, h => by
    simp only [countKey, List.countP_cons]
    by_cases hk : k = n
    · simp [hk]
    · rw [btreeGet, if_neg hk] at h
      have hpos := countKey_pos_of_get n u rest h
      simp only [countKey] at hpos
      omega

theorem countKey_insert_self (n : Name) (u : User) (l : List (Name × User))
    (h : List.Chain' (· < ·) (btreeKeys l)) :
    countKey n (btreeInsert n u l) = 1 := by
  have h1 := countKey_le_one n (btreeInsert n u l)
    (List.chain'_iff_pairwise.1 (wf_btreeInsert n u l h))
  have h2 := countKey_pos_of_get n u (btreeInsert n u l) (btreeGet_insert_self n u l)
  omega

theorem CachedWorld.cache_insert (w : CachedWorld) (n : Name) (e : Email) :
    ((CachedWorld.insert w n e).2).cache = w.cache := rfl

theorem CachedWorld.get_eq_hit (w : CachedWorld) (n : Name) (v : User)
    (hc : btreeGet n w.cache = some v) :
    CachedWorld.get w n = (some (Except.ok v), w) := by
  unfold CachedWorld.get
  rw [hc]

theorem CachedWorld.get_eq_miss_ok (w : CachedWorld) (n : Name) (v : User)
    (hc : btreeGet n w.cache = none) (hr : w.storage.read n = some (Except.ok v)) :
    CachedWorld.get w n =
      (some (Except.ok v), { w with cache := btreeInsert n v w.cache }) := by
  unfold CachedWorld.get
  rw [hc, hr]

theorem CachedWorld.get_eq_miss_none (w : CachedWorld) (n : Name)
    (hc : btreeGet n w.cache = none) (hr : w.storage.read n = none) :
    CachedWorld.get w n = (none, w) := by
  unfold CachedWorld.get
  rw [hc, hr]

theorem CachedWorld.get_eq_miss_err (w : CachedWorld) (n : Name) (err : Error)
    (hc : btreeGet n w.cache = none)
    (hr : w.storage.read n = some (Except.error err)) :
    CachedWorld.get w n = (some (Except.error err), w) := by
  unfold CachedWorld.get
  rw [hc, hr]

theorem CachedWorld.get_populates (w : CachedWorld) (n : Name) (u : User)
    (h : (CachedWorld.get w n).1 = some (Except.ok u)) :
    btreeGet n ((CachedWorld.get w n).2).cache = some u := by
  cases hc : btreeGet n w.cache with
  | some v =>
    rw [CachedWorld.get_eq_hit w n v hc] at h ⊢
    have hv : v = u := by simpa using h
    show btreeGet n w.cache = some u
    rw [hc, hv]
  | none =>
    cases hr : w.storage.read n with
    | none =>
      rw [CachedWorld.get_eq_miss_none w n hc hr] at h
      simp at h
    | some r =>
      cases r with
      | error err =>
        rw [CachedWorld.get_eq_miss_err w n err hc hr] at h
        simp at h
      | ok v =>
        rw [CachedWorld.get_eq_miss_ok w n v hc hr] at h ⊢
        have hv : v = u := by simpa using h
        show btreeGet n (btreeInsert n v w.cache) = some u
        rw [btreeGet_insert_self n v w.cache, hv]

theorem UserRepository.get_eq_read (w : World) (n : Name) :
    UserRepository.get w n = w.storage.read n := by
  unfold UserRepository.get
  cases h : w.storage.read n with
  | none => rfl
  | some r => cases r <;> rfl

/-- C1: for every Name `n` and Email `e`, `insert(n, e)` on any environment
succeeds, and afterwards `get(n)` succeeds and returns a User whose name is
`n`, whose email is `e`, and whose `create_time` equals its `update_time`. -/
theorem C1_insert_then_get (w : World) (n : Name) (e : Email) :
    (UserRepository.insert w n e).1 = Except.ok () ∧
      ∃ u : User,
        UserRepository.get (UserRepository.insert w n e).2 n = some (Except.ok u) ∧
          u.name = n ∧ u.email = e ∧ u.create_time = u.update_time := by
  refine ⟨rfl, ⟨⟨n, e, w.clock w.calls, w.clock w.calls⟩, ?_, rfl, rfl, rfl⟩⟩
  rw [UserRepository.get_eq_read]
  show MemoryStorage.read
      ⟨btreeInsert n ⟨n, e, w.clock w.calls, w.clock w.calls⟩ w.storage.list⟩ n =
    some (Except.ok ⟨n, e, w.clock w.calls, w.clock w.calls⟩)
  unfold MemoryStorage.read
  rw [btreeGet_insert_self]

/-- C2 (code evaluated at the failing input): reading a Name that was never
inserted does not produce a NotFound error value; the `unwrap` inside
`MemoryStorage::read` panics, modelled by the outer `none`, and
`UserRepository::get` propagates the panic. -/
theorem C2_read_missing_name_panics :
    MemoryStorage.read MemoryStorage.new ⟨"user1"⟩ = none ∧
      UserRepository.get TestWorld.new ⟨"user1"⟩ = none :=
  ⟨rfl, rfl⟩

/-- C3: with the fixed-clock time component `MockTime`, `now()` returns `T0`
on every call whatever the call index, and after `insert(n, e)` the stored
User's `create_time` and `update_time` both equal `T0`. -/
theorem C3_fixed_clock (w : World) (n : Name) (e : Email)
    (h : w.clock = MockTime.now) :
    (∀ i : Nat, MockTime.now i = T0) ∧
      ∃ u : User,
        btreeGet n ((UserRepository.insert w n e).2).storage.list = some u ∧
          u.create_time = T0 ∧ u.update_time = T0 := by
  refine ⟨fun _ => rfl, ⟨⟨n, e, w.clock w.calls, w.clock w.calls⟩, ?_, ?_, ?_⟩⟩
  · exact btreeGet_insert_self n _ w.storage.list
  · rw [h]; rfl
  · rw [h]; rfl

/-- Witness for C3 at the test environment with a concrete name and email. -/
theorem C3_fixed_clock_witness :
    TestWorld.new.clock = MockTime.now ∧
      ∃ u : User,
        btreeGet ⟨"user1"⟩
            ((UserRepository.insert TestWorld.new ⟨"user1"⟩ ⟨"user1@example.com"⟩).2).storage.list =
          some u ∧ u.create_time = T0 ∧ u.update_time = T0 :=
  ⟨rfl, (C3_fixed_clock TestWorld.new ⟨"user1"⟩ ⟨"user1@example.com"⟩ rfl).2⟩

/-- C4: `insert(n, e1)` then `insert(n, e2)` on the same environment leaves
exactly one stored record keyed by `n`, and that record's email is `e2`
(last write wins; no duplicate-name rejection). -/
theorem C4_last_write_wins (w : World) (n : Name) (e1 e2 : Email)
    (h : w.storage.WF) :
    countKey n (((UserRepository.insert (UserRepository.insert w n e1).2 n e2).2).storage.list) = 1 ∧
      ∃ u : User,
        btreeGet n (((UserRepository.insert (UserRepository.insert w n e1).2 n e2).2).storage.list) =
            some u ∧ u.email = e2 := by
  have hstep :
      ((UserRepository.insert (UserRepository.insert w n e1).2 n e2).2).storage.list =
        btreeInsert n ⟨n, e2, w.clock (w.calls + 1), w.clock (w.calls + 1)⟩
          (btreeInsert n ⟨n, e1, w.clock w.calls, w.clock w.calls⟩ w.storage.list) := rfl
  rw [hstep]
  exact ⟨countKey_insert_self _ _ _ (wf_btreeInsert _ _ _ h),
    ⟨_, btreeGet_insert_self _ _ _, rfl⟩⟩

/-- Witness for C4 at the test environment with concrete names and emails. -/
theorem C4_last_write_wins_witness :
    TestWorld.new.storage.WF ∧
      (countKey ⟨"n"⟩
          (((UserRepository.insert (UserRepository.insert TestWorld.new ⟨"n"⟩ ⟨"e1"⟩).2 ⟨"n"⟩ ⟨"e2"⟩).2).storage.list) = 1 ∧
        ∃ u : User,
          btreeGet ⟨"n"⟩
              (((UserRepository.insert (UserRepository.insert TestWorld.new ⟨"n"⟩ ⟨"e1"⟩).2 ⟨"n"⟩ ⟨"e2"⟩).2).storage.list) =
              some u ∧ u.email = ⟨"e2"⟩) :=
  ⟨List.chain'_nil, C4_last_write_wins TestWorld.new ⟨"n"⟩ ⟨"e1"⟩ ⟨"e2"⟩ List.chain'_nil⟩

/-- C5: `save_all(entries)` is exactly the fold of `save` over the entries in
sequence order, and a lookup afterwards retrieves the value of the last
entry for that Name when the sequence mentions it (so later duplicates of
the same Name win), and is otherwise unchanged. -/
theorem C5_save_all_eq_repeated_save (s : MemoryStorage) (l : List (Name × User)) :
    s.save_all l = (Except.ok (), l.foldl (fun acc p => (acc.save p.1 p.2).2) s) ∧
      ∀ n : Name,
        btreeGet n ((s.save_all l).2).list =
          match lastSaved n l with
          | some v => some v
          | none => btreeGet n s.list :=
  ⟨save_all_eq_foldl l s, fun n => btreeGet_save_all n l s⟩

/-- C6: `UserRepository::get` returns exactly the result of the storage
component's `read` — same success, same failure, same panic behavior,
with no transformation. -/
theorem C6_get_delegates_to_read (w : World) (n : Name) :
    UserRepository.get w n = w.storage.read n :=
  UserRepository.get_eq_read w n

/-- C7: `MemoryStorage::save` always returns `Ok(())`, and afterwards the
record stored under `n` is exactly `u`, overwriting any previous record. -/
theorem C7_save_succeeds_and_stores (s : MemoryStorage) (n : Name) (u : User) :
    (s.save n u).1 = Except.ok () ∧ btreeGet n ((s.save n u).2).list = some u :=
  ⟨rfl, btreeGet_insert_self n u s.list⟩

/-- C8 (modelled from the spec, the cached variant being absent from src):
in the cached repository variant, a successful `get(n)` populates the
cache entry for `n`, and a subsequent `insert(n, e2)` leaves the whole
cache unchanged, so the cache still holds the earlier fetched User. -/
theorem C8_cache_incoherence (w : CachedWorld) (n : Name) (e2 : Email) (u : User)
    (h : (CachedWorld.get w n).1 = some (Except.ok u)) :
    ((CachedWorld.insert (CachedWorld.get w n).2 n e2).2).cache =
        ((CachedWorld.get w n).2).cache ∧
      btreeGet n (((CachedWorld.insert (CachedWorld.get w n).2 n e2).2).cache) = some u := by
  refine ⟨CachedWorld.cache_insert _ _ _, ?_⟩
  rw [CachedWorld.cache_insert]
  exact CachedWorld.get_populates w n u h

/-- Witness for C8: a cached environment whose storage holds one user; get
then insert with a different email leaves the old user in the cache. -/
theorem C8_cache_incoherence_witness :
    (CachedWorld.get ⟨MockTime.now, 0, ⟨[(⟨"a"⟩, ⟨⟨"a"⟩, ⟨"a@x"⟩, T0, T0⟩)]⟩, []⟩ ⟨"a"⟩).1 =
        some (Except.ok ⟨⟨"a"⟩, ⟨"a@x"⟩, T0, T0⟩) ∧
      (((CachedWorld.insert
            (CachedWorld.get ⟨MockTime.now, 0, ⟨[(⟨"a"⟩, ⟨⟨"a"⟩, ⟨"a@x"⟩, T0, T0⟩)]⟩, []⟩ ⟨"a"⟩).2
            ⟨"a"⟩ ⟨"b@x"⟩).2).cache =
          ((CachedWorld.get ⟨MockTime.now, 0, ⟨[(⟨"a"⟩, ⟨⟨"a"⟩, ⟨"a@x"⟩, T0, T0⟩)]⟩, []⟩ ⟨"a"⟩).2).cache ∧
        btreeGet ⟨"a"⟩
            (((CachedWorld.insert
                (CachedWorld.get ⟨MockTime.now, 0, ⟨[(⟨"a"⟩, ⟨⟨"a"⟩, ⟨"a@x"⟩, T0, T0⟩)]⟩, []⟩ ⟨"a"⟩).2
                ⟨"a"⟩ ⟨"b@x"⟩).2).cache) =
          some ⟨⟨"a"⟩, ⟨"a@x"⟩, T0, T0⟩) :=
  ⟨rfl, C8_cache_incoherence ⟨MockTime.now, 0, ⟨[(⟨"a"⟩, ⟨⟨"a"⟩, ⟨"a@x"⟩, T0, T0⟩)]⟩, []⟩
    ⟨"a"⟩ ⟨"b@x"⟩ ⟨⟨"a"⟩, ⟨"a@x"⟩, T0, T0⟩ rfl⟩

/-- C9 (implicit frame property): `insert(n, e)` leaves the record stored
under every other Name `m ≠ n` — or its absence — exactly as it was. -/
theorem C9_insert_frame (w : World) (n m : Name) (e : Email) (h : m ≠ n) :
    btreeGet m (((UserRepository.insert w n e).2).storage.list) =
      btreeGet m w.storage.list :=
  btreeGet_insert_ne m n _ h w.storage.list

/-- Witness for C9: inserting under "a" does not disturb the (absent)
record under "b". -/
theorem C9_insert_frame_witness :
    (⟨"b"⟩ : Name) ≠ ⟨"a"⟩ ∧
      btreeGet ⟨"b"⟩ (((UserRepository.insert TestWorld.new ⟨"a"⟩ ⟨"e"⟩).2).storage.list) =
        btreeGet ⟨"b"⟩ TestWorld.new.storage.list :=
  ⟨by decide, C9_insert_frame TestWorld.new ⟨"a"⟩ ⟨"b"⟩ ⟨"e"⟩ (by decide)⟩

/-- C10 (implicit ordering guarantee): on every storage state reachable by
the storage operations, `read_all` succeeds and returns the stored Users in
the map's list order, whose keys are strictly ascending (hence one record
per stored Name). -/
theorem C10_read_all_sorted (s : MemoryStorage) (h : s.Reachable) :
    s.read_all = Except.ok (s.list.map Prod.snd) ∧
      List.Chain' (· < ·) (btreeKeys s.list) ∧ (btreeKeys s.list).Nodup := by
  refine ⟨rfl, wf_of_reachable h, ?_⟩
  exact (List.chain'_iff_pairwise.1 (wf_of_reachable h)).imp (fun hab => ne_of_lt hab)

/-- Witness for C10 at the state reached by one `save` from a fresh store. -/
theorem C10_read_all_sorted_witness :
    MemoryStorage.Reachable (MemoryStorage.new.save ⟨"a"⟩ ⟨⟨"a"⟩, ⟨"a@x"⟩, T0, T0⟩).2 ∧
      ((MemoryStorage.new.save ⟨"a"⟩ ⟨⟨"a"⟩, ⟨"a@x"⟩, T0, T0⟩).2.read_all =
          Except.ok ((MemoryStorage.new.save ⟨"a"⟩ ⟨⟨"a"⟩, ⟨"a@x"⟩, T0, T0⟩).2.list.map Prod.snd) ∧
        List.Chain' (· < ·) (btreeKeys (MemoryStorage.new.save ⟨"a"⟩ ⟨⟨"a"⟩, ⟨"a@x"⟩, T0, T0⟩).2.list) ∧
          (btreeKeys (MemoryStorage.new.save ⟨"a"⟩ ⟨⟨"a"⟩, ⟨"a@x"⟩, T0, T0⟩).2.list).Nodup) :=
  ⟨MemoryStorage.Reachable.save MemoryStorage.new ⟨"a"⟩ ⟨⟨"a"⟩, ⟨"a@x"⟩, T0, T0⟩
      MemoryStorage.Reachable.new,
    C10_read_all_sorted _
      (MemoryStorage.Reachable.save MemoryStorage.new ⟨"a"⟩ ⟨⟨"a"⟩, ⟨"a@x"⟩, T0, T0⟩
        MemoryStorage.Reachable.new)⟩

end Layered
